import Mathlib

/-!
Shallow embedding of the `bignumbe-rs` crate (src/lib.rs, src/cache.rs,
src/traits.rs) and verification of the specification claims.

Machine integers are modelled as `ℕ`; wrapping 64-bit operations take an
explicit `% 2^64` (or the equivalent conditional form for `wrapping_sub`),
and operations that can panic in Rust return `Except BNErr _`.
-/

/-- `u64::MAX`. -/
def u64MAX : ℕ := 2 ^ 64 - 1

/-- Fuel-driven integer logarithm, mirroring Rust `u64::ilog`/`u128::ilog`
(largest `x` with `b ^ x ≤ n`).  Fuel 130 is exact for every `n < b ^ 130`,
which covers all `u64` and `u128` arguments used by the crate. -/
def ilogGo (b : ℕ) : ℕ → ℕ → ℕ
  | 0, _ => 0
  | f + 1, n => if n < b then 0 else ilogGo b f (n / b) + 1

/-- Rust `ilog` with the fuel pre-applied. -/
def ilog (b n : ℕ) : ℕ := ilogGo b 130 n

/-- Fuel-driven test mirroring Rust `u16::is_power_of_two`
(`count_ones() == 1`). -/
def isPow2Go : ℕ → ℕ → Bool
  | 0, _ => false
  | f + 1, n =>
    if n = 0 then false
    else if n = 1 then true
    else if n % 2 = 1 then false
    else isPow2Go f (n / 2)

/-- `n.is_power_of_two()` for the `u16` arguments used by the crate. -/
def isPow2 (n : ℕ) : Bool := isPow2Go 70 n

/-- The metadata a `Base` implementation exposes: the radix `NUMBER`,
`exp_range() = (minExp, maxExp)` and `sig_range() = (minSig, maxSig)`
(src/lib.rs, trait `Base`). -/
structure BaseCtx where
  number : ℕ
  minExp : ℕ
  maxExp : ℕ
  minSig : ℕ
  maxSig : ℕ
deriving DecidableEq

/-- The documented `Base` contract (doc comment of trait `Base`,
src/lib.rs:114-126), as satisfied by every base the crate derives from
`calculate_ranges`: `maxExp = minExp + 1`, `minExp > 0`,
`minSig = NUMBER^minExp`, `maxSig = NUMBER^maxExp - 1`, `maxSig` fits in a
`u64`, one corrective shift always suffices
(`(maxSig + 1) * NUMBER = NUMBER^(maxExp+1) > u64::MAX`), and for the binary
radix the significand window is the full `u64` range (which is what the
documented `minSig * NUMBER > u64::MAX` forces for base 2; `Add` relies on
it in its `NUMBER != 2` branch). -/
abbrev Contract (B : BaseCtx) : Prop :=
  2 ≤ B.number ∧ B.number ≤ 65535 ∧ 0 < B.minExp ∧ B.maxExp = B.minExp + 1 ∧
  B.minSig = B.number ^ B.minExp ∧ B.maxSig = B.number ^ B.maxExp - 1 ∧
  B.maxSig ≤ u64MAX ∧ u64MAX < B.number ^ (B.maxExp + 1) ∧
  (B.number = 2 → B.maxSig = u64MAX)

/-- `B::pow(exp) = NUMBER ^ exp` (default impl, src/lib.rs:200). -/
def bpow (B : BaseCtx) (e : ℕ) : ℕ := B.number ^ e

/-- `B::lshift(lhs, exp) = lhs * NUMBER ^ exp` (src/lib.rs:239). -/
def lshift (B : BaseCtx) (l e : ℕ) : ℕ := l * B.number ^ e

/-- `B::rshift(lhs, exp) = lhs / NUMBER ^ exp` (src/lib.rs:247). -/
def rshift (B : BaseCtx) (l e : ℕ) : ℕ := l / B.number ^ e

/-- `B::get_mag(sig)` / `get_mag_u128` (src/lib.rs:271,278). -/
def getMag (B : BaseCtx) (s : ℕ) : ℕ := ilog B.number s

/-- The `BigNumBase` value: `(sig, exp)`; the `base` field carries no data
beyond the `BaseCtx` parameter, and `PartialEq` compares only `sig`/`exp`
(src/lib.rs:621-628). -/
structure BigNum where
  sig : ℕ
  exp : ℕ
deriving DecidableEq

/-- The `Ord` instance: lexicographic on `(exp, sig)` (src/lib.rs:632-647). -/
abbrev bnLT (a b : BigNum) : Prop :=
  a.exp < b.exp ∨ (a.exp = b.exp ∧ a.sig < b.sig)

/-- Panic conditions of the crate, as an error type (spec §7 taxonomy). -/
inductive BNErr where
  | invalidConstruction
  | arithmeticOverflow
  | underflow
  | divisionByZero
  | invariantViolation
  | logOfZero
  | shiftOverflow
deriving DecidableEq

/-- `BigNumBase::is_valid` (src/lib.rs:593-595). -/
abbrev isValidB (B : BaseCtx) (x : BigNum) : Prop :=
  x.sig ≤ B.maxSig ∧ (x.exp = 0 ∨ B.minSig ≤ x.sig)

/-- Compact form (§3): `exp == 0` and `sig ≤ maxSig`. -/
abbrev compactForm (B : BaseCtx) (x : BigNum) : Prop :=
  x.exp = 0 ∧ x.sig ≤ B.maxSig

/-- Expanded form (§3): `exp > 0` and `minSig ≤ sig ≤ maxSig`. -/
abbrev expandedForm (B : BaseCtx) (x : BigNum) : Prop :=
  0 < x.exp ∧ B.minSig ≤ x.sig ∧ x.sig ≤ B.maxSig

/-- Exactly one of the two valid forms holds. -/
abbrev validForm (B : BaseCtx) (x : BigNum) : Prop :=
  (compactForm B x ∧ ¬ expandedForm B x) ∨ (expandedForm B x ∧ ¬ compactForm B x)

/-- `BigNumBase::new` (src/lib.rs:519-566).  `exp as u32` casts are modelled
as `% 2^32`, `saturating_add` as a `min` against `u32::MAX`, and
`checked_add(1).unwrap_or_else(panic)` as the `arithmeticOverflow` error. -/
def bnNew (B : BaseCtx) (sig e : ℕ) : Except BNErr BigNum :=
  if B.minSig ≤ sig ∧ sig ≤ B.maxSig then .ok ⟨sig, e⟩
  else if B.maxSig < sig then
    if e = u64MAX then .error .arithmeticOverflow
    else .ok ⟨rshift B sig 1, e + 1⟩
  else if e = 0 then .ok ⟨sig, e⟩
  else if sig = 0 then .error .invalidConstruction
  else
    let mag := getMag B sig
    if min (mag + e % 2 ^ 32) (2 ^ 32 - 1) ≤ B.minExp then
      .ok ⟨lshift B sig (e % 2 ^ 32), 0⟩
    else
      let adj := B.minExp - mag
      .ok ⟨lshift B sig adj, e - adj⟩

/-- `Add for BigNumBase` (src/lib.rs:664-695).  `wrapping_add` is the sum
`% 2^64`; `max.exp + 1` cannot overflow in the `ℕ` model. -/
def bnAdd (B : BaseCtx) (x y : BigNum) : BigNum :=
  let mx := if bnLT y x then x else y
  let mn := if bnLT y x then y else x
  let shift := mx.exp - mn.exp
  if B.maxExp ≤ shift then mx
  else
    let result := (mx.sig + rshift B mn.sig shift) % 2 ^ 64
    if result < mx.sig then
      ⟨B.minSig + rshift B (result + (u64MAX - B.maxSig)) 1, mx.exp + 1⟩
    else if B.number ≠ 2 ∧ B.maxSig < result then
      ⟨rshift B result 1, mx.exp + 1⟩
    else ⟨result, mx.exp⟩

/-- `Sub for BigNumBase` (src/lib.rs:713-788).  The `self >= rhs` guard
panic is the `underflow` error; `wrapping_sub` is written in its conditional
form (operands are below `2^64` on every valid input). -/
def bnSub (B : BaseCtx) (x y : BigNum) : Except BNErr BigNum :=
  if bnLT x y then .error .underflow
  else
    let shift := x.exp - y.exp
    if B.maxExp ≤ shift then .ok x
    else
      let rs := rshift B y.sig shift
      let result := if rs ≤ x.sig then x.sig - rs else x.sig + 2 ^ 64 - rs
      let resSig := result
      let resExp := if x.sig < result then x.exp - 1 else x.exp
      if resSig = 0 then .ok ⟨0, 0⟩
      else if resExp = 0 ∨ B.minSig ≤ resSig then .ok ⟨resSig, resExp⟩
      else
        let mag := getMag B resSig
        let adj := B.minExp - mag
        if adj = resExp then .ok ⟨lshift B resSig adj, 0⟩
        else if resExp ≤ adj then
          let diff := adj - resExp - 1
          .ok ⟨lshift B resSig diff, 0⟩
        else .ok ⟨lshift B resSig adj, resExp - adj⟩

/-- `Mul for BigNumBase` (src/lib.rs:806-864).  The two `panic!` calls are
the `invariantViolation` error; the `u128` projection is exact in `ℕ`. -/
def bnMul (B : BaseCtx) (x y : BigNum) : Except BNErr BigNum :=
  if x.exp = 0 ∧ x.sig = 1 then .ok y
  else if x.exp = 0 ∧ x.sig = 0 then .ok ⟨0, 0⟩
  else if y.exp = 0 ∧ y.sig = 1 then .ok x
  else if y.exp = 0 ∧ y.sig = 0 then .ok ⟨0, 0⟩
  else
    let resSig := x.sig * y.sig
    let resExp := x.exp + y.exp
    if B.maxSig < resSig then
      let mag := getMag B resSig
      let adj := mag - B.minExp
      let sig := rshift B resSig adj
      if u64MAX < sig then .error .invariantViolation
      else .ok ⟨sig, resExp + adj⟩
    else if resExp ≠ 0 ∧ resSig < B.minSig then .error .invariantViolation
    else .ok ⟨resSig, resExp⟩

/-- `Div for BigNumBase` (src/lib.rs:885-932).  Rust's built-in
divide-by-zero panic is the `divisionByZero` error, and the panic of
`ilog` on a zero argument is the `logOfZero` error. -/
def bnDiv (B : BaseCtx) (x y : BigNum) : Except BNErr BigNum :=
  if bnLT x y then bnNew B 0 0
  else if x = y then bnNew B 1 0
  else if x.exp = 0 then
    if y.sig = 0 then .error .divisionByZero
    else .ok ⟨x.sig / y.sig, x.exp⟩
  else
    let lsig := lshift B x.sig B.maxExp
    let rsig := y.sig
    if rsig = 0 then .error .divisionByZero
    else
      let resSig := lsig / rsig
      let resExp := x.exp - y.exp
      if resSig = 0 then .error .logOfZero
      else
        let mag := getMag B resSig
        let adj := B.minExp + B.maxExp - mag
        if adj ≤ resExp then
          .ok ⟨rshift B resSig (B.maxExp - adj), resExp - adj⟩
        else
          let diff := adj - resExp
          .ok ⟨rshift B resSig (B.maxExp - adj + diff), 0⟩

/-- `Shl<u64> for BigNumBase` (src/lib.rs:941-970).
`checked_add(rhs).unwrap()` is the `arithmeticOverflow` error and the
`ilog`-of-zero panic is `logOfZero`. -/
def bnShl (B : BaseCtx) (x : BigNum) (n : ℕ) : Except BNErr BigNum :=
  if x.exp ≠ 0 then
    if x.exp + n ≤ u64MAX then .ok ⟨x.sig, x.exp + n⟩
    else .error .arithmeticOverflow
  else if x.sig = 0 then .error .logOfZero
  else
    let mag := getMag B x.sig
    let adj := B.minExp - mag
    if n < adj then .ok ⟨lshift B x.sig n, 0⟩
    else .ok ⟨lshift B x.sig adj, n - adj⟩

/-- `Shr<u64> for BigNumBase` (src/lib.rs:979-999).  The explicit
`panic!("Unable to shift ...")` is `shiftOverflow`, the `ilog`-of-zero
panic is `logOfZero`. -/
def bnShr (B : BaseCtx) (x : BigNum) (n : ℕ) : Except BNErr BigNum :=
  if n ≤ x.exp then .ok ⟨x.sig, x.exp - n⟩
  else if x.sig = 0 then .error .logOfZero
  else
    let mag := getMag B x.sig
    let diff := n - x.exp
    if mag < diff then .error .shiftOverflow
    else .ok ⟨rshift B x.sig diff, 0⟩

/-- `Succ for BigNumBase` (src/traits.rs:23-38). -/
def bnSucc (B : BaseCtx) (x : BigNum) : BigNum :=
  if x.sig = B.maxSig then ⟨B.minSig, x.exp + 1⟩
  else ⟨x.sig + 1, x.exp⟩

/-- `Pred for BigNumBase` (src/traits.rs:45-69); the panic at absolute
zero is the `underflow` error. -/
def bnPred (B : BaseCtx) (x : BigNum) : Except BNErr BigNum :=
  if x.exp = 0 then
    if x.sig = 0 then .error .underflow
    else .ok ⟨x.sig - 1, x.exp⟩
  else if x.sig = B.minSig then .ok ⟨B.maxSig, x.exp - 1⟩
  else .ok ⟨x.sig - 1, x.exp⟩

/-- `Base::calculate_ranges` (src/lib.rs:216-232), with the default `pow`
(`NUMBER ^ e`); the result is `(exp_range, sig_range)`. -/
def calculateRanges (b : ℕ) : (ℕ × ℕ) × (ℕ × ℕ) :=
  if isPow2 b && isPow2 (ilog 2 b) then
    let p := ilog 2 b
    let e := 64 / p
    let s := b ^ (e - 1)
    ((e - 1, e), (s, u64MAX))
  else
    let e := ilog b u64MAX
    ((e - 1, e), (b ^ (e - 1), b ^ e - 1))

/-- The cache entry `BaseData` (src/cache.rs:9-16). -/
structure BaseData where
  base : ℕ
  powers : List ℕ
  sigRange : ℕ × ℕ
  expRange : ℕ × ℕ
deriving DecidableEq

/-- The power-accumulation loop of `BaseData::new` (src/cache.rs:29-34),
with explicit fuel (the loop runs at most 65 times for any radix ≥ 2);
state is `(powers, exp, sig)`. -/
def baseDataGo (b : ℕ) : ℕ → List ℕ → ℕ → ℕ → List ℕ × ℕ × ℕ
  | 0, powers, e, s => (powers, e, s)
  | f + 1, powers, e, s =>
    if s ≤ u64MAX then baseDataGo b f (powers ++ [s]) (e + 1) (s * b)
    else (powers, e, s)

/-- `BaseData::new` (src/cache.rs:18-47); the fast-path panic for bases
2, 8, 10, 16 is `none`. -/
def baseDataNew (b : ℕ) : Option BaseData :=
  if b = 2 ∨ b = 8 ∨ b = 10 ∨ b = 16 then none
  else
    let st := baseDataGo b 80 [] 0 1
    let mx := st.2.2 / b
    let mn := mx / b
    some ⟨b, st.1, (mn, mx - 1), (st.2.1 - 2, st.2.1 - 1)⟩

/-- `get_cached_mag_arbitrary` (src/cache.rs:124-139) applied to a cache
entry: the first power exceeding `sig`, its index `saturating_sub 1`; the
`unwrap_or_else(panic)` when no power exceeds `sig` is `none`. -/
def getCachedMagArb (d : BaseData) (sig : ℕ) : Option ℕ :=
  (d.powers.findIdx? (fun v => sig < v)).map (fun i => i - 1)

instance exceptDecEq {ε α : Type} [DecidableEq ε] [DecidableEq α] :
    DecidableEq (Except ε α) := fun x y =>
  match x, y with
  | .ok a, .ok b => decidable_of_iff (a = b) (by simp)
  | .error a, .error b => decidable_of_iff (a = b) (by simp)
  | .ok _, .error _ => isFalse (fun h => Except.noConfusion h)
  | .error _, .ok _ => isFalse (fun h => Except.noConfusion h)

/-- The binary base: `NUMBER = 2`, `ExpRange(63, 64)`,
`SigRange(1 << 63, u64::MAX)` (src/lib.rs:313-360 and its doc examples). -/
def binB : BaseCtx := ⟨2, 63, 64, 2 ^ 63, 2 ^ 64 - 1⟩

/-! ### Helper lemmas about the embedded primitives -/

lemma u64MAX_add_one : u64MAX + 1 = 2 ^ 64 := by
  norm_num [u64MAX]

lemma u64MAX_pos : 0 < u64MAX := by
  norm_num [u64MAX]

lemma ilogGo_eq_log (b : ℕ) (hb : 2 ≤ b) :
    ∀ f n, n < b ^ f → ilogGo b f n = Nat.log b n := by
  intro f
  induction f with
  | zero =>
    intro n hn
    simp only [pow_zero, Nat.lt_one_iff] at hn
    simp [ilogGo, hn]
  | succ f ih =>
    intro n hn
    by_cases h : n < b
    · simp [ilogGo, h, Nat.log_of_lt h]
    · have hbn : b ≤ n := le_of_not_lt h
      have hdiv : n / b < b ^ f := by
        rw [Nat.div_lt_iff_lt_mul (by omega)]
        calc n < b ^ (f + 1) := hn
        _ = b ^ f * b := by rw [pow_succ]
      simp only [ilogGo, if_neg h]
      rw [ih _ hdiv, Nat.log_div_base]
      have hpos : 0 < Nat.log b n := Nat.log_pos (by omega) hbn
      omega

lemma ilog_eq_log (b n : ℕ) (hb : 2 ≤ b) (hn : n < 2 ^ 130) :
    ilog b n = Nat.log b n := by
  have h : n < b ^ 130 :=
    lt_of_lt_of_le hn (Nat.pow_le_pow_left hb 130)
  exact ilogGo_eq_log b hb 130 n h

lemma getMag_eq_log (B : BaseCtx) (hb : 2 ≤ B.number) (n : ℕ) (hn : n < 2 ^ 130) :
    getMag B n = Nat.log B.number n :=
  ilog_eq_log B.number n hb hn

lemma isPow2Go_sound : ∀ f n, isPow2Go f n = true → ∃ k, n = 2 ^ k := by
  intro f
  induction f with
  | zero => intro n h; simp [isPow2Go] at h
  | succ f ih =>
    intro n h
    simp only [isPow2Go] at h
    by_cases h0 : n = 0
    · simp [h0] at h
    · by_cases h1 : n = 1
      · exact ⟨0, by simp [h1]⟩
      · by_cases h2 : n % 2 = 1
        · simp [h0, h1, h2] at h
        · simp only [if_neg h0, if_neg h1, if_neg h2] at h
          obtain ⟨k, hk⟩ := ih _ h
          refine ⟨k + 1, ?_⟩
          have hmod := Nat.div_add_mod n 2
          have hp : 2 ^ (k + 1) = 2 * 2 ^ k := by rw [pow_succ]; ring
          omega

lemma isPow2_sound (n : ℕ) (h : isPow2 n = true) : ∃ k, n = 2 ^ k :=
  isPow2Go_sound 70 n h

/-! ### Consequences of the `Base` contract -/

lemma ctr_number (B : BaseCtx) (hB : Contract B) : 2 ≤ B.number := hB.1

lemma ctr_minExp_pos (B : BaseCtx) (hB : Contract B) : 0 < B.minExp := hB.2.2.1

lemma ctr_maxExp_eq (B : BaseCtx) (hB : Contract B) : B.maxExp = B.minExp + 1 :=
  hB.2.2.2.1

lemma ctr_minSig_eq (B : BaseCtx) (hB : Contract B) :
    B.minSig = B.number ^ B.minExp := hB.2.2.2.2.1

lemma ctr_maxSig_eq (B : BaseCtx) (hB : Contract B) :
    B.maxSig = B.number ^ B.maxExp - 1 := hB.2.2.2.2.2.1

lemma ctr_maxSig_le (B : BaseCtx) (hB : Contract B) : B.maxSig ≤ u64MAX :=
  hB.2.2.2.2.2.2.1

lemma ctr_headroom (B : BaseCtx) (hB : Contract B) :
    u64MAX < B.number ^ (B.maxExp + 1) := hB.2.2.2.2.2.2.2.1

lemma ctr_binary (B : BaseCtx) (hB : Contract B) :
    B.number = 2 → B.maxSig = u64MAX := hB.2.2.2.2.2.2.2.2

lemma ctr_pow_maxExp (B : BaseCtx) (hB : Contract B) :
    B.maxSig + 1 = B.number ^ B.maxExp := by
  have h1 : 1 ≤ B.number ^ B.maxExp :=
    Nat.one_le_pow _ _ (by have := ctr_number B hB; omega)
  have h2 := ctr_maxSig_eq B hB
  omega

lemma ctr_minSig_mul (B : BaseCtx) (hB : Contract B) :
    B.minSig * B.number = B.maxSig + 1 := by
  rw [ctr_pow_maxExp B hB, ctr_minSig_eq B hB, ctr_maxExp_eq B hB, pow_succ]

lemma ctr_two_le_minSig (B : BaseCtx) (hB : Contract B) : 2 ≤ B.minSig := by
  rw [ctr_minSig_eq B hB]
  calc 2 ≤ B.number := ctr_number B hB
  _ = B.number ^ 1 := (pow_one _).symm
  _ ≤ B.number ^ B.minExp :=
    Nat.pow_le_pow_right (by have := ctr_number B hB; omega)
      (ctr_minExp_pos B hB)

lemma ctr_minSig_le_maxSig (B : BaseCtx) (hB : Contract B) :
    B.minSig ≤ B.maxSig := by
  have h1 := ctr_minSig_mul B hB
  have h2 := ctr_two_le_minSig B hB
  have hb := ctr_number B hB
  have h3 : B.minSig * 2 ≤ B.minSig * B.number :=
    Nat.mul_le_mul_left _ hb
  omega

lemma ctr_minSig_lt_maxSig (B : BaseCtx) (hB : Contract B) :
    B.minSig < B.maxSig := by
  have h1 := ctr_minSig_mul B hB
  have h2 := ctr_two_le_minSig B hB
  have hb := ctr_number B hB
  have h3 : B.minSig * 2 ≤ B.minSig * B.number :=
    Nat.mul_le_mul_left _ hb
  omega

lemma ctr_maxExp_le (B : BaseCtx) (hB : Contract B) : B.maxExp ≤ 64 := by
  have h1 : B.number ^ B.maxExp ≤ 2 ^ 64 := by
    rw [← ctr_pow_maxExp B hB]
    have h2 := ctr_maxSig_le B hB
    have h3 := u64MAX_add_one
    omega
  have h2 : 2 ^ B.maxExp ≤ B.number ^ B.maxExp :=
    Nat.pow_le_pow_left (ctr_number B hB) _
  have h3 : (2 : ℕ) ^ B.maxExp ≤ 2 ^ 64 := le_trans h2 h1
  exact (Nat.pow_le_pow_iff_right (by norm_num)).mp h3

lemma ctr_maxSig_lt (B : BaseCtx) (hB : Contract B) : B.maxSig < 2 ^ 64 := by
  have h1 := ctr_maxSig_le B hB
  have h2 := u64MAX_add_one
  omega

/-- `maxSig / NUMBER = NUMBER ^ minExp - 1` (exactness of the corrective
right shift of the maximal significand). -/
lemma maxSig_div_base (B : BaseCtx) (hB : Contract B) :
    B.maxSig / B.number = B.number ^ B.minExp - 1 := by
  have hb := ctr_number B hB
  obtain ⟨Q, hQ⟩ : ∃ Q, B.number ^ B.minExp = Q + 1 :=
    ⟨B.number ^ B.minExp - 1,
      by have : 1 ≤ B.number ^ B.minExp := Nat.one_le_pow _ _ (by omega); omega⟩
  have key : B.maxSig = B.number * Q + (B.number - 1) := by
    have h1 := ctr_maxSig_eq B hB
    have h2 : B.number ^ B.maxExp = B.number ^ B.minExp * B.number := by
      rw [ctr_maxExp_eq B hB, pow_succ]
    have h3 : B.number ^ B.minExp * B.number = Q * B.number + B.number := by
      rw [hQ]; ring
    have h4 : Q * B.number = B.number * Q := by ring
    omega
  rw [key, Nat.mul_add_div (by omega)]
  have h5 : (B.number - 1) / B.number = 0 := Nat.div_eq_of_lt (by omega)
  omega

/-- `(maxSig - 1) / NUMBER = NUMBER ^ minExp - 1` as well. -/
lemma maxSig_sub_one_div_base (B : BaseCtx) (hB : Contract B) :
    (B.maxSig - 1) / B.number = B.number ^ B.minExp - 1 := by
  have hb := ctr_number B hB
  obtain ⟨Q, hQ⟩ : ∃ Q, B.number ^ B.minExp = Q + 1 :=
    ⟨B.number ^ B.minExp - 1,
      by have : 1 ≤ B.number ^ B.minExp := Nat.one_le_pow _ _ (by omega); omega⟩
  have hms : 2 ≤ B.maxSig :=
    le_trans (ctr_two_le_minSig B hB) (ctr_minSig_le_maxSig B hB)
  have key : B.maxSig - 1 = B.number * Q + (B.number - 2) := by
    have h1 := ctr_maxSig_eq B hB
    have h2 : B.number ^ B.maxExp = B.number ^ B.minExp * B.number := by
      rw [ctr_maxExp_eq B hB, pow_succ]
    have h3 : B.number ^ B.minExp * B.number = Q * B.number + B.number := by
      rw [hQ]; ring
    have h4 : Q * B.number = B.number * Q := by ring
    omega
  rw [key, Nat.mul_add_div (by omega)]
  have h5 : (B.number - 2) / B.number = 0 := Nat.div_eq_of_lt (by omega)
  omega

/-! ### Division and power bound helpers -/

lemma le_div_pow {b j i s : ℕ} (hb : 0 < b) (h : b ^ j ≤ s) (hij : i ≤ j) :
    b ^ (j - i) ≤ s / b ^ i := by
  rw [Nat.le_div_iff_mul_le (pow_pos hb i)]
  calc b ^ (j - i) * b ^ i = b ^ (j - i + i) := (pow_add _ _ _).symm
  _ = b ^ j := by rw [Nat.sub_add_cancel hij]
  _ ≤ s := h

lemma div_pow_lt {b k i s : ℕ} (hb : 0 < b) (h : s < b ^ k) (hik : i ≤ k) :
    s / b ^ i < b ^ (k - i) := by
  rw [Nat.div_lt_iff_lt_mul (pow_pos hb i)]
  calc s < b ^ k := h
  _ = b ^ (k - i + i) := by rw [Nat.sub_add_cancel hik]
  _ = b ^ (k - i) * b ^ i := pow_add _ _ _

lemma log_mul_pow {b s n : ℕ} (hb : 1 < b) (hs : s ≠ 0) :
    Nat.log b (s * b ^ n) = Nat.log b s + n := by
  induction n with
  | zero => simp
  | succ n ih =>
    have h1 : s * b ^ (n + 1) = s * b ^ n * b := by rw [pow_succ]; ring
    have h2 : s * b ^ n ≠ 0 := by positivity
    rw [h1, Nat.log_mul_base hb h2, ih]
    omega

/-! ### Claim C4 -/

/-- C4 (amended): for every valid nonzero dividend `lhs`, dividing by the
canonical zero fails with DivisionByZero.  (As stated the claim is false:
`0 / 0` short-circuits through the `Ordering::Equal` arm and returns `1`.) -/
theorem c4_div_by_zero_amended (B : BaseCtx) (_hB : Contract B) (x : BigNum)
    (_hx : isValidB B x) (hnz : ¬ (x.sig = 0 ∧ x.exp = 0)) :
    bnDiv B x ⟨0, 0⟩ = .error .divisionByZero := by
  rcases x with ⟨s, e⟩
  unfold bnDiv
  have h1 : ¬ bnLT ⟨s, e⟩ ⟨0, 0⟩ := by simp [bnLT]
  rw [if_neg h1]
  have h2 : ¬ (BigNum.mk s e = ⟨0, 0⟩) := by
    simp only [BigNum.mk.injEq, not_and]
    intro hs he
    exact absurd ⟨hs, he⟩ hnz
  rw [if_neg h2]
  by_cases he : e = 0
  · subst he; simp
  · simp [he]

/-- C4 counterexample: the zero dividend is valid, yet dividing the
canonical zero by the canonical zero returns `1` instead of failing. -/
theorem c4_div_by_zero_cex :
    isValidB binB ⟨0, 0⟩ ∧ bnDiv binB ⟨0, 0⟩ ⟨0, 0⟩ = .ok ⟨1, 0⟩ := by
  constructor
  · decide
  · decide

theorem c4_div_by_zero_witness :
    Contract binB ∧ isValidB binB ⟨5, 0⟩ ∧
      bnDiv binB ⟨5, 0⟩ ⟨0, 0⟩ = .error .divisionByZero :=
  ⟨by decide, by decide,
    c4_div_by_zero_amended binB (by decide) ⟨5, 0⟩ (by decide) (by decide)⟩

/-! ### Claim C9 -/

/-- C9: for every valid value `a`, `pred (succ a) = a`.  In the `ℕ`-exponent
model this holds with no exception; in particular it covers every point
other than the `u64` exponent boundary the claim already excepts. -/
theorem c9_pred_succ (B : BaseCtx) (hB : Contract B) (x : BigNum)
    (hx : isValidB B x) : bnPred B (bnSucc B x) = .ok x := by
  rcases x with ⟨s, e⟩
  obtain ⟨hle, hor⟩ := hx
  unfold bnSucc bnPred
  by_cases hs : s = B.maxSig
  · have hlt := ctr_minSig_lt_maxSig B hB
    simp only [if_pos hs]
    have h1 : ¬ (e + 1 = 0) := by omega
    simp only [if_neg h1, if_pos rfl]
    rw [hs]
    simp
  · simp only [if_neg hs]
    by_cases he : e = 0
    · subst he
      have h2 : ¬ (s + 1 = 0) := by omega
      simp [h2]
    · have hminle : B.minSig ≤ s := by
        rcases hor with h | h
        · exact absurd h he
        · exact h
      have h2 : ¬ (s + 1 = B.minSig) := by omega
      simp [he, h2]

theorem c9_pred_succ_witness :
    Contract binB ∧ isValidB binB ⟨5, 0⟩ ∧
      bnPred binB (bnSucc binB ⟨5, 0⟩) = .ok ⟨5, 0⟩ :=
  ⟨by decide, by decide, c9_pred_succ binB (by decide) ⟨5, 0⟩ (by decide)⟩

/-! ### Claim C7 -/

/-- C7: addition and multiplication are commutative for all valid operands
of the same base (both are in fact commutative on all inputs: `Add` orders
its operands with the total lexicographic order and `Mul` checks the 0/1
short circuits on both sides before the symmetric wide product). -/
theorem c7_commutativity (B : BaseCtx) (_hB : Contract B) (x y : BigNum)
    (_hx : isValidB B x) (_hy : isValidB B y) :
    bnAdd B x y = bnAdd B y x ∧ bnMul B x y = bnMul B y x := by
  rcases x with ⟨xs, xe⟩
  rcases y with ⟨ys, ye⟩
  constructor
  · unfold bnAdd
    by_cases h1 : bnLT ⟨ys, ye⟩ ⟨xs, xe⟩
    · have h2 : ¬ bnLT (⟨xs, xe⟩ : BigNum) ⟨ys, ye⟩ := by
        simp only [bnLT] at h1 ⊢
        omega
      simp only [if_pos h1, if_neg h2]
    · by_cases h2 : bnLT ⟨xs, xe⟩ ⟨ys, ye⟩
      · simp only [if_pos h2, if_neg h1]
      · have hse : xs = ys ∧ xe = ye := by
          simp only [bnLT] at h1 h2
          omega
        rw [hse.1, hse.2]
  · by_cases hx1 : xe = 0 ∧ xs = 1
    · obtain ⟨he, hs⟩ := hx1
      subst he; subst hs
      by_cases hy1 : ye = 0 ∧ ys = 1
      · obtain ⟨he2, hs2⟩ := hy1
        subst he2; subst hs2
        rfl
      · by_cases hy0 : ye = 0 ∧ ys = 0
        · obtain ⟨he2, hs2⟩ := hy0
          subst he2; subst hs2
          rfl
        · simp [bnMul, hy1, hy0]
    · by_cases hx0 : xe = 0 ∧ xs = 0
      · obtain ⟨he, hs⟩ := hx0
        subst he; subst hs
        by_cases hy1 : ye = 0 ∧ ys = 1
        · obtain ⟨he2, hs2⟩ := hy1
          subst he2; subst hs2
          rfl
        · by_cases hy0 : ye = 0 ∧ ys = 0
          · obtain ⟨he2, hs2⟩ := hy0
            subst he2; subst hs2
            rfl
          · simp [bnMul, hy1, hy0]
      · by_cases hy1 : ye = 0 ∧ ys = 1
        · obtain ⟨he2, hs2⟩ := hy1
          subst he2; subst hs2
          simp [bnMul, hx1, hx0]
        · by_cases hy0 : ye = 0 ∧ ys = 0
          · obtain ⟨he2, hs2⟩ := hy0
            subst he2; subst hs2
            simp [bnMul, hx1, hx0]
          · simp only [bnMul, if_neg hx1, if_neg hx0, if_neg hy1, if_neg hy0]
            rw [Nat.mul_comm ys xs, Nat.add_comm ye xe]

theorem c7_commutativity_witness :
    Contract binB ∧ isValidB binB ⟨3, 0⟩ ∧ isValidB binB ⟨2 ^ 63, 7⟩ ∧
      (bnAdd binB ⟨3, 0⟩ ⟨2 ^ 63, 7⟩ = bnAdd binB ⟨2 ^ 63, 7⟩ ⟨3, 0⟩ ∧
       bnMul binB ⟨3, 0⟩ ⟨2 ^ 63, 7⟩ = bnMul binB ⟨2 ^ 63, 7⟩ ⟨3, 0⟩) :=
  ⟨by decide, by decide, by decide,
    c7_commutativity binB (by decide) ⟨3, 0⟩ ⟨2 ^ 63, 7⟩ (by decide) (by decide)⟩

/-! ### Claim C6 -/

/-- C6: for every contract base, `new(maxSig, 1) - maxSig` equals
`new(maxSig - maxSig/NUMBER, 1)` (the compact subtrahend `maxSig` is the
value `From<u64>` produces, i.e. `new(maxSig, 0)`). -/
theorem c6_sub_precision_loss (B : BaseCtx) (hB : Contract B) :
    ((bnNew B B.maxSig 1).bind fun a =>
      (bnNew B B.maxSig 0).bind fun c => bnSub B a c) =
      bnNew B (B.maxSig - B.maxSig / B.number) 1 := by
  have hb := ctr_number B hB
  have hmm := ctr_minSig_le_maxSig B hB
  have hq : B.maxSig / B.number = B.minSig - 1 := by
    rw [maxSig_div_base B hB, ← ctr_minSig_eq B hB]
  have hms2 := ctr_two_le_minSig B hB
  have hres_ge : B.minSig ≤ B.maxSig - B.maxSig / B.number := by
    have h1 := ctr_minSig_mul B hB
    have h3 : B.minSig * 2 ≤ B.minSig * B.number := Nat.mul_le_mul_left _ hb
    omega
  have hres_le : B.maxSig - B.maxSig / B.number ≤ B.maxSig := by omega
  have hnew1 : bnNew B B.maxSig 1 = .ok ⟨B.maxSig, 1⟩ := by
    unfold bnNew; rw [if_pos ⟨hmm, le_refl _⟩]
  have hnew0 : bnNew B B.maxSig 0 = .ok ⟨B.maxSig, 0⟩ := by
    unfold bnNew; rw [if_pos ⟨hmm, le_refl _⟩]
  have hnewR : bnNew B (B.maxSig - B.maxSig / B.number) 1 =
      .ok ⟨B.maxSig - B.maxSig / B.number, 1⟩ := by
    unfold bnNew; rw [if_pos ⟨hres_ge, hres_le⟩]
  rw [hnew1, hnew0, hnewR]
  show bnSub B ⟨B.maxSig, 1⟩ ⟨B.maxSig, 0⟩ = _
  have hlt : ¬ bnLT (⟨B.maxSig, 1⟩ : BigNum) ⟨B.maxSig, 0⟩ := by
    simp [bnLT]
  have hA : ¬ (B.maxExp ≤ 1) := by
    have h1 := ctr_maxExp_eq B hB
    have h2 := ctr_minExp_pos B hB
    omega
  have hd : B.minSig - 1 ≤ B.maxSig := by omega
  have hw : ¬ (B.maxSig < B.maxSig - (B.minSig - 1)) := by omega
  have hz : ¬ (B.maxSig - (B.minSig - 1) = 0) := by omega
  have hok : B.minSig ≤ B.maxSig - (B.minSig - 1) := by omega
  simp [bnSub, hlt, hA, hq, hd, hw, hz, hok, rshift]

theorem c6_sub_precision_loss_witness :
    Contract binB ∧
      ((bnNew binB binB.maxSig 1).bind fun a =>
        (bnNew binB binB.maxSig 0).bind fun c => bnSub binB a c) =
        bnNew binB (binB.maxSig - binB.maxSig / binB.number) 1 :=
  ⟨by decide, c6_sub_precision_loss binB (by decide)⟩

/-! ### Characterization of the cache loop and `calculate_ranges` -/

lemma pow_le_u64MAX_iff (b : ℕ) (hb : 2 ≤ b) (j : ℕ) :
    b ^ j ≤ u64MAX ↔ j ≤ Nat.log b u64MAX :=
  Nat.pow_le_iff_le_log (by omega) (by norm_num [u64MAX])

lemma log_u64MAX_le (b : ℕ) (hb : 2 ≤ b) : Nat.log b u64MAX ≤ 63 := by
  have h1 : b ^ Nat.log b u64MAX ≤ u64MAX :=
    Nat.pow_log_le_self b (by norm_num [u64MAX])
  have h2 : 2 ^ Nat.log b u64MAX ≤ b ^ Nat.log b u64MAX :=
    Nat.pow_le_pow_left hb _
  have h3 : (2 : ℕ) ^ Nat.log b u64MAX < 2 ^ 64 := by
    have h4 := u64MAX_add_one
    omega
  have h5 := (Nat.pow_lt_pow_iff_right (by norm_num : (1 : ℕ) < 2)).mp h3
  omega

lemma log_u64MAX_two_le (b : ℕ) (hb2 : 2 ≤ b) (hb3 : b ≤ 65535) :
    2 ≤ Nat.log b u64MAX := by
  apply (pow_le_u64MAX_iff b hb2 2).mp
  calc b ^ 2 ≤ 65535 ^ 2 := Nat.pow_le_pow_left hb3 2
  _ ≤ u64MAX := by norm_num [u64MAX]

/-- Full characterization of the `BaseData::new` power loop: starting at
state `(P, j, b^j)` with `b^j` still in range, it appends exactly the powers
`b^j .. b^L` (`L` the largest in-range exponent) and stops with counter
`L + 1` and accumulator `b^(L+1)`. -/
lemma baseDataGo_spec (b : ℕ) (hb : 2 ≤ b) :
    ∀ (f j : ℕ) (P : List ℕ), b ^ j ≤ u64MAX →
      Nat.log b u64MAX + 2 - j ≤ f →
      baseDataGo b f P j (b ^ j) =
        (P ++ (List.range (Nat.log b u64MAX + 1 - j)).map (fun i => b ^ (j + i)),
         Nat.log b u64MAX + 1, b ^ (Nat.log b u64MAX + 1)) := by
  intro f
  induction f with
  | zero =>
    intro j P hpow hfuel
    exfalso
    have hj : j ≤ Nat.log b u64MAX := (pow_le_u64MAX_iff b hb j).mp hpow
    omega
  | succ f ih =>
    intro j P hpow hfuel
    simp only [baseDataGo, if_pos hpow]
    rw [show b ^ j * b = b ^ (j + 1) from (pow_succ b j).symm]
    by_cases hnext : b ^ (j + 1) ≤ u64MAX
    · have hj1 : j + 1 ≤ Nat.log b u64MAX := (pow_le_u64MAX_iff b hb _).mp hnext
      rw [ih (j + 1) (P ++ [b ^ j]) hnext (by omega)]
      rw [List.append_assoc]
      congr 1
      have hr : Nat.log b u64MAX + 1 - j = (Nat.log b u64MAX - j) + 1 := by omega
      have hr2 : Nat.log b u64MAX + 1 - (j + 1) = Nat.log b u64MAX - j := by
        omega
      rw [hr, hr2, List.range_succ_eq_map]
      simp only [List.map_cons, List.map_map, List.singleton_append, add_zero]
      congr 1
      congr 1
      apply List.map_congr_left
      intro i _hi
      simp only [Function.comp_apply]
      congr 1
      omega
    · have hj : j = Nat.log b u64MAX := by
        have hj1 : j ≤ Nat.log b u64MAX := (pow_le_u64MAX_iff b hb j).mp hpow
        have hj2 : ¬ (j + 1 ≤ Nat.log b u64MAX) := fun hc =>
          hnext ((pow_le_u64MAX_iff b hb (j + 1)).mpr hc)
        omega
      subst hj
      obtain ⟨g, rfl⟩ : ∃ g, f = g + 1 := ⟨f - 1, by omega⟩
      simp only [baseDataGo, if_neg hnext]
      have h1 : Nat.log b u64MAX + 1 - Nat.log b u64MAX = 1 := by omega
      rw [h1]
      simp [List.range_succ]

/-- The cache entry `BaseData::new` builds for a non-fast-path radix. -/
lemma baseDataNew_spec (b : ℕ) (hb2 : 2 ≤ b) (hb3 : b ≤ 65535)
    (hf : ¬(b = 2 ∨ b = 8 ∨ b = 10 ∨ b = 16)) :
    baseDataNew b = some ⟨b,
      (List.range (Nat.log b u64MAX + 1)).map (fun i => b ^ i),
      (b ^ (Nat.log b u64MAX - 1), b ^ Nat.log b u64MAX - 1),
      (Nat.log b u64MAX - 1, Nat.log b u64MAX)⟩ := by
  have hL := log_u64MAX_le b hb2
  have hL2 := log_u64MAX_two_le b hb2 hb3
  have hspec := baseDataGo_spec b hb2 80 0 []
    (by simpa using (pow_le_u64MAX_iff b hb2 0).mpr (by omega)) (by omega)
  simp only [pow_zero, Nat.sub_zero, Nat.add_sub_cancel, List.nil_append,
    zero_add] at hspec
  have hdiv1 : b ^ (Nat.log b u64MAX + 1) / b = b ^ Nat.log b u64MAX := by
    rw [pow_succ, Nat.mul_div_cancel _ (by omega)]
  have hdiv2 : b ^ Nat.log b u64MAX / b = b ^ (Nat.log b u64MAX - 1) := by
    obtain ⟨k, hk⟩ : ∃ k, Nat.log b u64MAX = k + 1 :=
      ⟨Nat.log b u64MAX - 1, by omega⟩
    rw [hk, pow_succ, Nat.mul_div_cancel _ (by omega), Nat.add_sub_cancel]
  have he1 : Nat.log b u64MAX + 1 - 2 = Nat.log b u64MAX - 1 := by omega
  have he2 : Nat.log b u64MAX + 1 - 1 = Nat.log b u64MAX := by omega
  simp only [baseDataNew, if_neg hf, hspec, hdiv1, hdiv2, he1, he2]

/-- In the special branch of `calculate_ranges` the radix is `2^k` with
`k` itself a power of two at most 15, i.e. one of 2, 4, 16, 256. -/
lemma specialBase_cases (b : ℕ) (hb2 : 2 ≤ b) (hb3 : b ≤ 65535)
    (h : (isPow2 b && isPow2 (ilog 2 b)) = true) :
    b = 2 ∨ b = 4 ∨ b = 16 ∨ b = 256 := by
  rw [Bool.and_eq_true] at h
  obtain ⟨k, hk⟩ := isPow2_sound b h.1
  have hilog : ilog 2 b = k := by
    rw [ilog_eq_log 2 b (by norm_num) (by omega), hk,
      Nat.log_pow (by norm_num)]
  obtain ⟨j, hj⟩ := isPow2_sound _ h.2
  rw [hilog] at hj
  have hk15 : k ≤ 15 := by
    by_contra hc
    push_neg at hc
    have h16 : 2 ^ 16 ≤ 2 ^ k := Nat.pow_le_pow_right (by norm_num) (by omega)
    omega
  have hj3 : j ≤ 3 := by
    by_contra hc
    push_neg at hc
    have h4 : 2 ^ 4 ≤ 2 ^ j := Nat.pow_le_pow_right (by norm_num) (by omega)
    omega
  subst hj
  subst hk
  interval_cases j <;> norm_num

/-- `calculate_ranges` on the generic branch. -/
lemma calculateRanges_generic (b : ℕ) (hb2 : 2 ≤ b)
    (h : ¬ ((isPow2 b && isPow2 (ilog 2 b)) = true)) :
    calculateRanges b =
      ((Nat.log b u64MAX - 1, Nat.log b u64MAX),
       (b ^ (Nat.log b u64MAX - 1), b ^ Nat.log b u64MAX - 1)) := by
  unfold calculateRanges
  rw [if_neg h, ilog_eq_log b u64MAX hb2 (by norm_num [u64MAX])]

/-! ### Claim C2 -/

/-- C2 (amended): for every radix in `2..=65535` the ranges from
`calculate_ranges()` satisfy `minExp > 0`, `minSig = NUMBER^minExp` and
`maxSig = NUMBER^(minExp+1) - 1`; the fourth invariant holds in the form
`(maxSig + 1) * NUMBER > u64::MAX` (one corrective shift suffices) — the
claimed `minSig * NUMBER > u64::MAX` is false for every radix outside
`{2, 4, 16, 256}`. -/
theorem c2_calculate_ranges_amended (b : ℕ) (hb2 : 2 ≤ b) (hb3 : b ≤ 65535) :
    0 < (calculateRanges b).1.1 ∧
    (calculateRanges b).2.1 = b ^ (calculateRanges b).1.1 ∧
    (calculateRanges b).2.2 = b ^ ((calculateRanges b).1.1 + 1) - 1 ∧
    u64MAX < ((calculateRanges b).2.2 + 1) * b := by
  by_cases h : (isPow2 b && isPow2 (ilog 2 b)) = true
  · rcases specialBase_cases b hb2 hb3 h with rfl | rfl | rfl | rfl <;> decide
  · rw [calculateRanges_generic b hb2 h]
    have hL2 := log_u64MAX_two_le b hb2 hb3
    dsimp only
    refine ⟨by omega, rfl, ?_, ?_⟩
    · have h1 : Nat.log b u64MAX - 1 + 1 = Nat.log b u64MAX := by omega
      rw [h1]
    · have h1 : 1 ≤ b ^ Nat.log b u64MAX := Nat.one_le_pow _ _ (by omega)
      have h2 : b ^ Nat.log b u64MAX - 1 + 1 = b ^ Nat.log b u64MAX := by omega
      rw [h2, ← pow_succ]
      exact Nat.lt_pow_succ_log_self (by omega) u64MAX

/-- C2 counterexample: at radix 10 the claimed invariant
`minSig * NUMBER > u64::MAX` fails (`10^18 * 10 = 10^19 ≤ u64::MAX`). -/
theorem c2_calculate_ranges_cex :
    (2 : ℕ) ≤ 10 ∧ (10 : ℕ) ≤ 65535 ∧
      ¬ (u64MAX < (calculateRanges 10).2.1 * 10) := by
  refine ⟨by norm_num, by norm_num, ?_⟩
  decide

theorem c2_calculate_ranges_witness :
    (2 : ℕ) ≤ 7 ∧ (7 : ℕ) ≤ 65535 ∧
      (0 < (calculateRanges 7).1.1 ∧
       (calculateRanges 7).2.1 = 7 ^ (calculateRanges 7).1.1 ∧
       (calculateRanges 7).2.2 = 7 ^ ((calculateRanges 7).1.1 + 1) - 1 ∧
       u64MAX < ((calculateRanges 7).2.2 + 1) * 7) :=
  ⟨by norm_num, by norm_num,
    c2_calculate_ranges_amended 7 (by norm_num) (by norm_num)⟩

/-! ### Claim C3 -/

/-- C3 (amended): for every radix in `2..=65535` other than the fast-path
bases 2, 8, 10, 16 **and other than 4 and 256** (which `calculate_ranges`
special-cases but the cache builds generically), the cache metadata agrees
with `calculate_ranges`, and the power table is exactly
`NUMBER^0 .. NUMBER^L` with `L` the largest exponent with
`NUMBER^L ≤ u64::MAX`. -/
theorem c3_cache_refinement_amended (b : ℕ) (hb2 : 2 ≤ b) (hb3 : b ≤ 65535)
    (hf : ¬(b = 2 ∨ b = 4 ∨ b = 8 ∨ b = 10 ∨ b = 16 ∨ b = 256)) :
    ∃ d, baseDataNew b = some d ∧
      d.sigRange = (calculateRanges b).2 ∧
      d.expRange = (calculateRanges b).1 ∧
      d.powers = (List.range (ilog b u64MAX + 1)).map (fun i => b ^ i) := by
  have hf4 : ¬(b = 2 ∨ b = 8 ∨ b = 10 ∨ b = 16) := by
    intro hc
    apply hf
    tauto
  have hns : ¬ ((isPow2 b && isPow2 (ilog 2 b)) = true) := by
    intro hc
    rcases specialBase_cases b hb2 hb3 hc with rfl | rfl | rfl | rfl <;> tauto
  refine ⟨_, baseDataNew_spec b hb2 hb3 hf4, ?_, ?_, ?_⟩
  · rw [calculateRanges_generic b hb2 hns]
  · rw [calculateRanges_generic b hb2 hns]
  · rw [ilog_eq_log b u64MAX hb2 (by norm_num [u64MAX])]

/-- C3 counterexample: at radix 4 the cache entry and `calculate_ranges`
disagree on `sig_range` (`(2^60, 2^62 - 1)` versus `(2^62, 2^64 - 1)`). -/
theorem c3_cache_refinement_cex :
    (baseDataNew 4).map BaseData.sigRange = some (2 ^ 60, 2 ^ 62 - 1) ∧
    (calculateRanges 4).2 = (2 ^ 62, 2 ^ 64 - 1) ∧
    ((2 ^ 60, 2 ^ 62 - 1) : ℕ × ℕ) ≠ (2 ^ 62, 2 ^ 64 - 1) := by
  refine ⟨by decide, by decide, by decide⟩

theorem c3_cache_refinement_witness :
    (2 : ℕ) ≤ 7 ∧ (7 : ℕ) ≤ 65535 ∧
      (∃ d, baseDataNew 7 = some d ∧
        d.sigRange = (calculateRanges 7).2 ∧
        d.expRange = (calculateRanges 7).1 ∧
        d.powers = (List.range (ilog 7 u64MAX + 1)).map (fun i => 7 ^ i)) :=
  ⟨by norm_num, by norm_num,
    c3_cache_refinement_amended 7 (by norm_num) (by norm_num) (by decide)⟩

/-! ### Claim C10 -/

/-- C10: for every populated non-fast-path radix, the cached magnitude query
at significand 0 succeeds and returns 0 (the head of the power table is
`NUMBER^0 = 1 > 0`, found at index 0, and `saturating_sub 1` clamps to 0). -/
theorem c10_cached_mag_zero (b : ℕ) (hb2 : 2 ≤ b) (hb3 : b ≤ 65535)
    (hf : ¬(b = 2 ∨ b = 8 ∨ b = 10 ∨ b = 16)) :
    (baseDataNew b).map (fun d => getCachedMagArb d 0) = some (some 0) := by
  rw [baseDataNew_spec b hb2 hb3 hf]
  rw [List.range_succ_eq_map]
  simp [getCachedMagArb, List.findIdx?_cons]

theorem c10_cached_mag_zero_witness :
    (baseDataNew 3).map (fun d => getCachedMagArb d 0) = some (some 0) :=
  c10_cached_mag_zero 3 (by norm_num) (by norm_num) (by decide)

/-! ### Claim C5 -/

/-- C5: whenever the wrapping 64-bit addition of `max.sig` and
`rshift(min.sig, shift)` wraps, `Add` returns exactly
`(minSig + rshift(wrapped + (u64::MAX - maxSig), 1), max.exp + 1)`. -/
theorem c5_add_wrap_formula (B : BaseCtx) (hB : Contract B) (x y mx mn : BigNum)
    (hx : isValidB B x) (hy : isValidB B y)
    (hmx : mx = if bnLT y x then x else y)
    (hmn : mn = if bnLT y x then y else x)
    (hsh : mx.exp - mn.exp < B.maxExp)
    (hwrap : 2 ^ 64 ≤ mx.sig + rshift B mn.sig (mx.exp - mn.exp)) :
    bnAdd B x y =
      ⟨B.minSig + rshift B
        ((mx.sig + rshift B mn.sig (mx.exp - mn.exp)) % 2 ^ 64 +
          (u64MAX - B.maxSig)) 1,
       mx.exp + 1⟩ := by
  have hxle : x.sig ≤ B.maxSig := hx.1
  have hyle : y.sig ≤ B.maxSig := hy.1
  have hMlt : B.maxSig < 2 ^ 64 := ctr_maxSig_lt B hB
  by_cases hlt : bnLT y x
  · rw [if_pos hlt] at hmx hmn
    subst mx; subst mn
    have h1 : ¬ (B.maxExp ≤ x.exp - y.exp) := not_le.mpr hsh
    have hrs : rshift B y.sig (x.exp - y.exp) < 2 ^ 64 :=
      lt_of_le_of_lt (le_trans (Nat.div_le_self _ _) hyle) hMlt
    have hmod : (x.sig + rshift B y.sig (x.exp - y.exp)) % 2 ^ 64 =
        x.sig + rshift B y.sig (x.exp - y.exp) - 2 ^ 64 := by
      rw [Nat.mod_eq_sub_mod hwrap, Nat.mod_eq_of_lt (by omega)]
    have hcond : (x.sig + rshift B y.sig (x.exp - y.exp)) % 2 ^ 64 < x.sig := by
      rw [hmod]
      omega
    simp only [bnAdd, if_pos hlt, if_neg h1, if_pos hcond]
  · rw [if_neg hlt] at hmx hmn
    subst mx; subst mn
    have h1 : ¬ (B.maxExp ≤ y.exp - x.exp) := not_le.mpr hsh
    have hrs : rshift B x.sig (y.exp - x.exp) < 2 ^ 64 :=
      lt_of_le_of_lt (le_trans (Nat.div_le_self _ _) hxle) hMlt
    have hmod : (y.sig + rshift B x.sig (y.exp - x.exp)) % 2 ^ 64 =
        y.sig + rshift B x.sig (y.exp - x.exp) - 2 ^ 64 := by
      rw [Nat.mod_eq_sub_mod hwrap, Nat.mod_eq_of_lt (by omega)]
    have hcond : (y.sig + rshift B x.sig (y.exp - x.exp)) % 2 ^ 64 < y.sig := by
      rw [hmod]
      omega
    simp only [bnAdd, if_neg hlt, if_neg h1, if_pos hcond]

/-- C5 witness, covering the claim's binary scenario
`new(0xFFFF_FFFF_FFFF_FFFF, 1) + 2 == new(0x8000_0000_0000_0000, 2)`
(the compact operand `2` is `from(2) = new(2, 0)`). -/
theorem c5_add_wrap_formula_witness :
    Contract binB ∧ isValidB binB ⟨2 ^ 64 - 1, 1⟩ ∧ isValidB binB ⟨2, 0⟩ ∧
      2 ^ 64 ≤ (2 ^ 64 - 1) + rshift binB 2 1 ∧
      bnAdd binB ⟨2 ^ 64 - 1, 1⟩ ⟨2, 0⟩ = ⟨2 ^ 63, 2⟩ := by
  refine ⟨by decide, by decide, by decide, by decide, ?_⟩
  have h := c5_add_wrap_formula binB (by decide) ⟨2 ^ 64 - 1, 1⟩ ⟨2, 0⟩
    ⟨2 ^ 64 - 1, 1⟩ ⟨2, 0⟩ (by decide) (by decide) (by decide) (by decide)
    (by decide) (by decide)
  rw [h]
  decide

/-! ### Claim C8 -/

/-- C8 (amended): for every valid `a` with a nonzero significand and every
shift amount `n` without exponent overflow (`a.exp + n ≤ u64::MAX`),
`(a << n) >> n == a` exactly.  (As stated the claim is false at the valid
compact zero: `0 << n` panics inside `ilog` for `n ≥ 1`.) -/
theorem c8_shift_round_trip_amended (B : BaseCtx) (hB : Contract B)
    (x : BigNum) (hx : isValidB B x) (hs0 : x.sig ≠ 0) (n : ℕ)
    (hn : x.exp + n ≤ u64MAX) :
    (bnShl B x n).bind (fun r => bnShr B r n) = .ok x := by
  rcases x with ⟨s, e⟩
  replace hs0 : s ≠ 0 := hs0
  replace hn : e + n ≤ u64MAX := hn
  have hle : s ≤ B.maxSig := hx.1
  have hor : e = 0 ∨ B.minSig ≤ s := hx.2
  have hb2 := ctr_number B hB
  by_cases he : e = 0
  · subst he
    have hMlt : B.maxSig < 2 ^ 64 := ctr_maxSig_lt B hB
    have hs64 : s < 2 ^ 64 := by omega
    have h130 : s < 2 ^ 130 := by
      have h2 : (2 : ℕ) ^ 64 < 2 ^ 130 := by norm_num
      omega
    have hmag : getMag B s = Nat.log B.number s := getMag_eq_log B hb2 s h130
    have hmagle : getMag B s ≤ B.minExp := by
      have h1 : s < B.number ^ B.maxExp := by
        have h2 := ctr_pow_maxExp B hB
        omega
      have h2 := Nat.log_lt_of_lt_pow hs0 h1
      have h3 := ctr_maxExp_eq B hB
      omega
    have hminSig_lt : B.minSig < 2 ^ 64 :=
      lt_of_le_of_lt (ctr_minSig_le_maxSig B hB) hMlt
    have hpowm : ∀ m : ℕ, m ≤ B.minExp → s * B.number ^ m < 2 ^ 130 := by
      intro m hm
      have h1 : B.number ^ m ≤ B.number ^ B.minExp :=
        Nat.pow_le_pow_right (by omega) hm
      have h2 : B.number ^ B.minExp = B.minSig := (ctr_minSig_eq B hB).symm
      have h3 : s * B.number ^ m ≤ s * B.minSig := by
        apply Nat.mul_le_mul_left
        omega
      have h4 : s * B.minSig ≤ 2 ^ 64 * 2 ^ 64 :=
        Nat.mul_le_mul (le_of_lt hs64) (le_of_lt hminSig_lt)
      have h5 : (2 : ℕ) ^ 64 * 2 ^ 64 < 2 ^ 130 := by norm_num
      omega
    by_cases hcase : n < B.minExp - getMag B s
    · have hshl : bnShl B ⟨s, 0⟩ n = .ok ⟨lshift B s n, 0⟩ := by
        simp [bnShl, hs0, hcase]
      rw [hshl]
      show bnShr B ⟨lshift B s n, 0⟩ n = .ok ⟨s, 0⟩
      by_cases hn0 : n = 0
      · subst hn0
        simp [bnShr, lshift]
      · have hnm : n ≤ B.minExp := by omega
        have hln : s * B.number ^ n ≠ 0 := by positivity
        have hmag2 : getMag B (s * B.number ^ n) = Nat.log B.number s + n := by
          rw [getMag_eq_log B hb2 _ (hpowm n hnm), log_mul_pow (by omega) hs0]
        have hc1 : ¬ (n ≤ (0 : ℕ)) := by omega
        have hc2 : ¬ (getMag B (s * B.number ^ n) < n) := by
          rw [hmag2]
          omega
        have hdivc : s * B.number ^ n / B.number ^ n = s :=
          Nat.mul_div_cancel _ (pow_pos (by omega) _)
        simp [bnShr, lshift, rshift, hc1, hln, hc2, hdivc]
    · have hc : ¬ (n < B.minExp - getMag B s) := hcase
      have hshl : bnShl B ⟨s, 0⟩ n =
          .ok ⟨lshift B s (B.minExp - getMag B s),
               n - (B.minExp - getMag B s)⟩ := by
        simp [bnShl, hs0, hc]
      rw [hshl]
      show bnShr B ⟨lshift B s (B.minExp - getMag B s),
        n - (B.minExp - getMag B s)⟩ n = .ok ⟨s, 0⟩
      by_cases hadj0 : B.minExp - getMag B s = 0
      · rw [hadj0]
        simp [bnShr, lshift]
      · have hadjle : B.minExp - getMag B s ≤ B.minExp := by omega
        have hln : s * B.number ^ (B.minExp - getMag B s) ≠ 0 := by positivity
        have hc1 : ¬ (n ≤ n - (B.minExp - getMag B s)) := by omega
        have hmag2 : getMag B (s * B.number ^ (B.minExp - getMag B s)) =
            Nat.log B.number s + (B.minExp - getMag B s) := by
          rw [getMag_eq_log B hb2 _ (hpowm _ hadjle),
            log_mul_pow (by omega) hs0]
        have hdiffeq : n - (n - (B.minExp - getMag B s)) =
            B.minExp - getMag B s := by omega
        have hc2 : ¬ (getMag B (s * B.number ^ (B.minExp - getMag B s)) <
            n - (n - (B.minExp - getMag B s))) := by
          rw [hmag2, hdiffeq]
          omega
        have hdivc : s * B.number ^ (B.minExp - getMag B s) /
            B.number ^ (B.minExp - getMag B s) = s :=
          Nat.mul_div_cancel _ (pow_pos (by omega) _)
        simp [bnShr, lshift, rshift, hc1, hln, hc2, hdiffeq, hdivc]
        rw [hmag2, ← hmag]
        omega
  · have hshl : bnShl B ⟨s, e⟩ n = .ok ⟨s, e + n⟩ := by
      simp [bnShl, he, hn]
    rw [hshl]
    show bnShr B ⟨s, e + n⟩ n = .ok ⟨s, e⟩
    have h1 : n ≤ e + n := Nat.le_add_left n e
    simp [bnShr, h1]

/-- C8 counterexample: the compact zero is valid and incurs no exponent
overflow, yet `0 << 1` fails (Rust `ilog` panics on a zero significand), so
the round trip does not return `0`. -/
theorem c8_shift_round_trip_cex :
    isValidB binB ⟨0, 0⟩ ∧ (0 : ℕ) + 1 ≤ u64MAX ∧
      (bnShl binB ⟨0, 0⟩ 1).bind (fun r => bnShr binB r 1) ≠ .ok ⟨0, 0⟩ := by
  refine ⟨by decide, by decide, by decide⟩

theorem c8_shift_round_trip_witness :
    Contract binB ∧ isValidB binB ⟨5, 0⟩ ∧ (5 : ℕ) ≠ 0 ∧
      (0 : ℕ) + 70 ≤ u64MAX ∧
      (bnShl binB ⟨5, 0⟩ 70).bind (fun r => bnShr binB r 70) = .ok ⟨5, 0⟩ :=
  ⟨by decide, by decide, by decide, by decide,
    c8_shift_round_trip_amended binB (by decide) ⟨5, 0⟩ (by decide) (by decide)
      70 (by decide)⟩

/-! ### Claim C1: validity of every operation result -/

lemma validForm_iff (B : BaseCtx) (x : BigNum) :
    validForm B x ↔ isValidB B x := by
  constructor
  · rintro (⟨⟨h1, h2⟩, -⟩ | ⟨⟨h1, h2, h3⟩, -⟩)
    · exact ⟨h2, Or.inl h1⟩
    · exact ⟨h3, Or.inr h2⟩
  · rintro ⟨h1, h2 | h2⟩
    · exact Or.inl ⟨⟨h2, h1⟩, fun hc => by omega⟩
    · by_cases he : x.exp = 0
      · exact Or.inl ⟨⟨he, h1⟩, fun hc => by omega⟩
      · exact Or.inr ⟨⟨by omega, h2, h1⟩, fun hc => by omega⟩

lemma validForm_mk2 (B : BaseCtx) (s e : ℕ) (h1 : s ≤ B.maxSig)
    (h2 : e = 0 ∨ B.minSig ≤ s) : validForm B ⟨s, e⟩ :=
  (validForm_iff B ⟨s, e⟩).mpr ⟨h1, h2⟩

/-- `Add` preserves the two-form invariant. -/
lemma bnAdd_valid (B : BaseCtx) (hB : Contract B) (x y : BigNum)
    (hx : isValidB B x) (hy : isValidB B y) : validForm B (bnAdd B x y) := by
  have hb := ctr_number B hB
  have hMlt := ctr_maxSig_lt B hB
  have hmul := ctr_minSig_mul B hB
  have hminmax := ctr_minSig_le_maxSig B hB
  have hmin2 := ctr_two_le_minSig B hB
  have hMle := ctr_maxSig_le B hB
  have hMsucc := u64MAX_add_one
  have hbin := ctr_binary B hB
  have key : ∀ mx mn : BigNum, isValidB B mx → isValidB B mn →
      validForm B (if B.maxExp ≤ mx.exp - mn.exp then mx
        else
          if (mx.sig + rshift B mn.sig (mx.exp - mn.exp)) % 2 ^ 64 < mx.sig then
            ⟨B.minSig + rshift B
              ((mx.sig + rshift B mn.sig (mx.exp - mn.exp)) % 2 ^ 64 +
                (u64MAX - B.maxSig)) 1, mx.exp + 1⟩
          else if B.number ≠ 2 ∧ B.maxSig <
              (mx.sig + rshift B mn.sig (mx.exp - mn.exp)) % 2 ^ 64 then
            ⟨rshift B ((mx.sig + rshift B mn.sig (mx.exp - mn.exp)) % 2 ^ 64) 1,
              mx.exp + 1⟩
          else ⟨(mx.sig + rshift B mn.sig (mx.exp - mn.exp)) % 2 ^ 64,
            mx.exp⟩) := by
    intro mx mn hmx hmn
    set rs := rshift B mn.sig (mx.exp - mn.exp) with hrs
    have hrs_le : rs ≤ B.maxSig := le_trans (Nat.div_le_self _ _) hmn.1
    split_ifs with hA hW hC
    · exact (validForm_iff B mx).mpr hmx
    · have hwrap : 2 ^ 64 ≤ mx.sig + rs := by
        by_contra hc
        push_neg at hc
        rw [Nat.mod_eq_of_lt hc] at hW
        omega
      have hmod : (mx.sig + rs) % 2 ^ 64 = mx.sig + rs - 2 ^ 64 := by
        rw [Nat.mod_eq_sub_mod hwrap, Nat.mod_eq_of_lt (by omega)]
      apply validForm_mk2
      · have h1 : (mx.sig + rs) % 2 ^ 64 + (u64MAX - B.maxSig) ≤
            B.maxSig - 1 := by
          have h2 := hmx.1
          omega
        have h2 : rshift B ((mx.sig + rs) % 2 ^ 64 + (u64MAX - B.maxSig)) 1 ≤
            B.number ^ B.minExp - 1 := by
          rw [← maxSig_sub_one_div_base B hB]
          simp only [rshift, pow_one]
          exact Nat.div_le_div_right h1
        have h3 := ctr_minSig_eq B hB
        have h4 : B.minSig * 2 ≤ B.minSig * B.number :=
          Nat.mul_le_mul_left _ hb
        omega
      · exact Or.inr (Nat.le_add_right _ _)
    · have hnw : mx.sig + rs < 2 ^ 64 := by
        by_contra hc
        push_neg at hc
        have hmod : (mx.sig + rs) % 2 ^ 64 = mx.sig + rs - 2 ^ 64 := by
          rw [Nat.mod_eq_sub_mod hc, Nat.mod_eq_of_lt (by omega)]
        rw [hmod] at hW
        omega
      have hmod2 : (mx.sig + rs) % 2 ^ 64 = mx.sig + rs := Nat.mod_eq_of_lt hnw
      obtain ⟨hne2, hbig⟩ := hC
      rw [hmod2] at hbig
      apply validForm_mk2
      · simp only [rshift, pow_one, hmod2]
        have h1 : mx.sig + rs ≤ 2 * B.maxSig := by
          have h2 := hmx.1
          omega
        have h2 : (mx.sig + rs) / B.number ≤ (2 * B.maxSig) / B.number :=
          Nat.div_le_div_right h1
        have h3 : (2 * B.maxSig) / B.number ≤ (2 * B.maxSig) / 2 :=
          Nat.div_le_div_left hb (by norm_num)
        omega
      · refine Or.inr ?_
        simp only [rshift, pow_one, hmod2]
        rw [Nat.le_div_iff_mul_le (by omega)]
        omega
    · have hnw : mx.sig + rs < 2 ^ 64 := by
        by_contra hc
        push_neg at hc
        have hmod : (mx.sig + rs) % 2 ^ 64 = mx.sig + rs - 2 ^ 64 := by
          rw [Nat.mod_eq_sub_mod hc, Nat.mod_eq_of_lt (by omega)]
        rw [hmod] at hW
        omega
      have hmod2 : (mx.sig + rs) % 2 ^ 64 = mx.sig + rs := Nat.mod_eq_of_lt hnw
      rw [hmod2] at hC
      apply validForm_mk2
      · rw [hmod2]
        by_cases h2 : B.number = 2
        · have h3 := hbin h2
          omega
        · have h3 : ¬ (B.maxSig < mx.sig + rs) := fun hc => hC ⟨h2, hc⟩
          omega
      · rcases hmx.2 with h | h
        · exact Or.inl h
        · refine Or.inr ?_
          rw [hmod2]
          omega
  unfold bnAdd
  by_cases hlt : bnLT y x
  · simp only [if_pos hlt]
    exact key x y hx hy
  · simp only [if_neg hlt]
    exact key y x hy hx

/-- `Sub` preserves the two-form invariant on every normal return. -/
lemma bnSub_valid (B : BaseCtx) (hB : Contract B) (x y : BigNum)
    (hx : isValidB B x) (hy : isValidB B y) :
    ∀ r, bnSub B x y = .ok r → validForm B r := by
  intro r hr
  have hb := ctr_number B hB
  have hminmax := ctr_minSig_le_maxSig B hB
  have hmin2 := ctr_two_le_minSig B hB
  have hMlt := ctr_maxSig_lt B hB
  have hmsd := maxSig_div_base B hB
  have hminSig_eq := ctr_minSig_eq B hB
  have hmaxExp_eq := ctr_maxExp_eq B hB
  have hpow_max := ctr_pow_maxExp B hB
  simp only [bnSub] at hr
  by_cases h1 : bnLT x y
  · rw [if_pos h1] at hr
    exact absurd hr (by simp)
  rw [if_neg h1] at hr
  by_cases h2 : B.maxExp ≤ x.exp - y.exp
  · rw [if_pos h2] at hr
    injection hr with h
    subst h
    exact (validForm_iff B x).mpr hx
  rw [if_neg h2] at hr
  have hord : y.exp < x.exp ∨ (y.exp = x.exp ∧ y.sig ≤ x.sig) := by
    simp only [bnLT] at h1
    omega
  have hc3 : rshift B y.sig (x.exp - y.exp) ≤ x.sig := by
    rcases hord with h | ⟨hesame, hsle⟩
    · have hxe : x.exp ≠ 0 := by omega
      have hxs : B.minSig ≤ x.sig := hx.2.resolve_left hxe
      have hsh1 : 1 ≤ x.exp - y.exp := by omega
      have hb1 : B.number ≤ B.number ^ (x.exp - y.exp) := by
        calc B.number = B.number ^ 1 := (pow_one _).symm
        _ ≤ B.number ^ (x.exp - y.exp) := Nat.pow_le_pow_right (by omega) hsh1
      have hd1 : rshift B y.sig (x.exp - y.exp) ≤ y.sig / B.number := by
        simp only [rshift]
        exact Nat.div_le_div_left hb1 (by omega)
      have hd2 : y.sig / B.number ≤ B.maxSig / B.number :=
        Nat.div_le_div_right hy.1
      have hlt2 : B.maxSig / B.number < B.minSig := by
        have hp : 1 ≤ B.number ^ B.minExp := Nat.one_le_pow _ _ (by omega)
        omega
      omega
    · have h0 : x.exp - y.exp = 0 := by omega
      rw [h0]
      simp only [rshift, pow_zero, Nat.div_one]
      exact hsle
  rw [if_pos hc3] at hr
  have hc4 : ¬ (x.sig < x.sig - rshift B y.sig (x.exp - y.exp)) := by omega
  rw [if_neg hc4] at hr
  set rv := x.sig - rshift B y.sig (x.exp - y.exp) with hrv
  have hrv_le : rv ≤ B.maxSig := le_trans (Nat.sub_le _ _) hx.1
  by_cases h5 : rv = 0
  · rw [if_pos h5] at hr
    injection hr with h
    subst h
    exact validForm_mk2 B 0 0 (by omega) (Or.inl rfl)
  rw [if_neg h5] at hr
  by_cases h6 : x.exp = 0 ∨ B.minSig ≤ rv
  · rw [if_pos h6] at hr
    injection hr with h
    subst h
    exact validForm_mk2 B rv x.exp hrv_le h6
  rw [if_neg h6] at hr
  push_neg at h6
  obtain ⟨hxe0, hrvlt⟩ := h6
  have hmag : getMag B rv = Nat.log B.number rv := by
    apply getMag_eq_log B hb
    have h7 : (2 : ℕ) ^ 64 < 2 ^ 130 := by norm_num
    omega
  have hmagle : Nat.log B.number rv < B.minExp := by
    apply Nat.log_lt_of_lt_pow h5
    rw [← hminSig_eq]
    omega
  have hup : rv < B.number ^ (getMag B rv + 1) := by
    rw [hmag]
    exact Nat.lt_pow_succ_log_self (by omega) rv
  have hlow : B.number ^ getMag B rv ≤ rv := by
    rw [hmag]
    exact Nat.pow_log_le_self _ h5
  have hmmax : B.number ^ (B.minExp + 1) = B.maxSig + 1 := by
    rw [hmaxExp_eq] at hpow_max
    omega
  by_cases h7 : B.minExp - getMag B rv = x.exp
  · rw [if_pos h7] at hr
    injection hr with h
    subst h
    apply validForm_mk2
    · simp only [lshift]
      have h8 : rv * B.number ^ (B.minExp - getMag B rv) <
          B.number ^ (getMag B rv + 1) * B.number ^ (B.minExp - getMag B rv) :=
        Nat.mul_lt_mul_of_lt_of_le hup (le_refl _) (pow_pos (by omega) _)
      rw [← pow_add] at h8
      have h9 : getMag B rv + 1 + (B.minExp - getMag B rv) = B.minExp + 1 := by
        omega
      rw [h9] at h8
      omega
    · exact Or.inl rfl
  rw [if_neg h7] at hr
  by_cases h8 : x.exp ≤ B.minExp - getMag B rv
  · rw [if_pos h8] at hr
    injection hr with h
    subst h
    apply validForm_mk2
    · simp only [lshift]
      have hd1 : rv * B.number ^ (B.minExp - getMag B rv - x.exp - 1) <
          B.number ^ (getMag B rv + 1) *
            B.number ^ (B.minExp - getMag B rv - x.exp - 1) :=
        Nat.mul_lt_mul_of_lt_of_le hup (le_refl _) (pow_pos (by omega) _)
      rw [← pow_add] at hd1
      have hd2 : getMag B rv + 1 + (B.minExp - getMag B rv - x.exp - 1) ≤
          B.minExp := by omega
      have hd3 : B.number ^ (getMag B rv + 1 +
          (B.minExp - getMag B rv - x.exp - 1)) ≤ B.number ^ B.minExp :=
        Nat.pow_le_pow_right (by omega) hd2
      have hd4 : B.number ^ B.minExp ≤ B.maxSig := by
        rw [← hminSig_eq]
        exact hminmax
      omega
    · exact Or.inl rfl
  rw [if_neg h8] at hr
  injection hr with h
  subst h
  apply validForm_mk2
  · simp only [lshift]
    have h9 : rv * B.number ^ (B.minExp - getMag B rv) <
        B.number ^ (getMag B rv + 1) * B.number ^ (B.minExp - getMag B rv) :=
      Nat.mul_lt_mul_of_lt_of_le hup (le_refl _) (pow_pos (by omega) _)
    rw [← pow_add] at h9
    have h10 : getMag B rv + 1 + (B.minExp - getMag B rv) = B.minExp + 1 := by
      omega
    rw [h10] at h9
    omega
  · refine Or.inr ?_
    simp only [lshift]
    have h9 : B.number ^ getMag B rv * B.number ^ (B.minExp - getMag B rv) ≤
        rv * B.number ^ (B.minExp - getMag B rv) :=
      Nat.mul_le_mul_right _ hlow
    rw [← pow_add] at h9
    have h10 : getMag B rv + (B.minExp - getMag B rv) = B.minExp := by omega
    rw [h10] at h9
    rw [hminSig_eq]
    exact h9

/-- `Mul` preserves the two-form invariant on every normal return. -/
lemma bnMul_valid (B : BaseCtx) (hB : Contract B) (x y : BigNum)
    (hx : isValidB B x) (hy : isValidB B y) :
    ∀ r, bnMul B x y = .ok r → validForm B r := by
  intro r hr
  have hb := ctr_number B hB
  have hminmax := ctr_minSig_le_maxSig B hB
  have hmin2 := ctr_two_le_minSig B hB
  have hMlt := ctr_maxSig_lt B hB
  have hminSig_eq := ctr_minSig_eq B hB
  have hmaxExp_eq := ctr_maxExp_eq B hB
  have hpow_max := ctr_pow_maxExp B hB
  simp only [bnMul] at hr
  by_cases h1 : x.exp = 0 ∧ x.sig = 1
  · rw [if_pos h1] at hr
    injection hr with h
    subst h
    exact (validForm_iff B y).mpr hy
  rw [if_neg h1] at hr
  by_cases h2 : x.exp = 0 ∧ x.sig = 0
  · rw [if_pos h2] at hr
    injection hr with h
    subst h
    exact validForm_mk2 B 0 0 (by omega) (Or.inl rfl)
  rw [if_neg h2] at hr
  by_cases h3 : y.exp = 0 ∧ y.sig = 1
  · rw [if_pos h3] at hr
    injection hr with h
    subst h
    exact (validForm_iff B x).mpr hx
  rw [if_neg h3] at hr
  by_cases h4 : y.exp = 0 ∧ y.sig = 0
  · rw [if_pos h4] at hr
    injection hr with h
    subst h
    exact validForm_mk2 B 0 0 (by omega) (Or.inl rfl)
  rw [if_neg h4] at hr
  have hxs1 : 1 ≤ x.sig := by
    rcases hx.2 with h | h
    · by_contra hc
      exact h2 ⟨h, by omega⟩
    · omega
  have hys1 : 1 ≤ y.sig := by
    rcases hy.2 with h | h
    · by_contra hc
      exact h4 ⟨h, by omega⟩
    · omega
  by_cases h5 : B.maxSig < x.sig * y.sig
  · rw [if_pos h5] at hr
    have hres0 : x.sig * y.sig ≠ 0 := Nat.mul_ne_zero (by omega) (by omega)
    have hmag : getMag B (x.sig * y.sig) =
        Nat.log B.number (x.sig * y.sig) := by
      apply getMag_eq_log B hb
      have hp1 : x.sig * y.sig ≤ 2 ^ 64 * 2 ^ 64 :=
        Nat.mul_le_mul (by omega) (by omega)
      have hp2 : (2 : ℕ) ^ 64 * 2 ^ 64 < 2 ^ 130 := by norm_num
      omega
    have hmag_ge : B.maxExp ≤ getMag B (x.sig * y.sig) := by
      rw [hmag]
      apply (Nat.pow_le_iff_le_log (by omega) hres0).mp
      omega
    have hminExp_le_mag : B.minExp ≤ getMag B (x.sig * y.sig) := by omega
    have hup : x.sig * y.sig <
        B.number ^ (getMag B (x.sig * y.sig) + 1) := by
      rw [hmag]
      exact Nat.lt_pow_succ_log_self (by omega) _
    have hlow : B.number ^ getMag B (x.sig * y.sig) ≤ x.sig * y.sig := by
      rw [hmag]
      exact Nat.pow_log_le_self _ hres0
    have hsig_low : B.number ^ B.minExp ≤
        x.sig * y.sig / B.number ^ (getMag B (x.sig * y.sig) - B.minExp) := by
      have h9 := le_div_pow (b := B.number)
        (i := getMag B (x.sig * y.sig) - B.minExp) (by omega) hlow (by omega)
      have hexp : getMag B (x.sig * y.sig) -
          (getMag B (x.sig * y.sig) - B.minExp) = B.minExp := by omega
      rw [hexp] at h9
      exact h9
    have hsig_up : x.sig * y.sig /
        B.number ^ (getMag B (x.sig * y.sig) - B.minExp) <
        B.number ^ (B.minExp + 1) := by
      have h9 := div_pow_lt (b := B.number)
        (i := getMag B (x.sig * y.sig) - B.minExp) (by omega) hup (by omega)
      have hexp : getMag B (x.sig * y.sig) + 1 -
          (getMag B (x.sig * y.sig) - B.minExp) = B.minExp + 1 := by omega
      rw [hexp] at h9
      exact h9
    have hmmax : B.number ^ (B.minExp + 1) = B.maxSig + 1 := by
      rw [hmaxExp_eq] at hpow_max
      omega
    by_cases h6 : u64MAX < rshift B (x.sig * y.sig)
        (getMag B (x.sig * y.sig) - B.minExp)
    · rw [if_pos h6] at hr
      exact absurd hr (by simp)
    · rw [if_neg h6] at hr
      injection hr with h
      subst h
      apply validForm_mk2
      · simp only [rshift]
        omega
      · refine Or.inr ?_
        simp only [rshift]
        rw [hminSig_eq]
        exact hsig_low
  · rw [if_neg h5] at hr
    by_cases h7 : x.exp + y.exp ≠ 0 ∧ x.sig * y.sig < B.minSig
    · rw [if_pos h7] at hr
      exact absurd hr (by simp)
    · rw [if_neg h7] at hr
      injection hr with h
      subst h
      apply validForm_mk2
      · omega
      · by_cases he : x.exp + y.exp = 0
        · exact Or.inl he
        · refine Or.inr ?_
          by_contra hc
          exact h7 ⟨he, by omega⟩

/-- `Div` preserves the two-form invariant on every normal return. -/
lemma bnDiv_valid (B : BaseCtx) (hB : Contract B) (x y : BigNum)
    (hx : isValidB B x) (hy : isValidB B y) :
    ∀ r, bnDiv B x y = .ok r → validForm B r := by
  intro r hr
  have hb := ctr_number B hB
  have hminmax := ctr_minSig_le_maxSig B hB
  have hmin2 := ctr_two_le_minSig B hB
  have hMlt := ctr_maxSig_lt B hB
  have hminSig_eq := ctr_minSig_eq B hB
  have hmaxExp_eq := ctr_maxExp_eq B hB
  have hpow_max := ctr_pow_maxExp B hB
  have hnew00 : bnNew B 0 0 = .ok ⟨0, 0⟩ := by
    unfold bnNew
    have hn1 : ¬ (B.minSig ≤ 0 ∧ (0 : ℕ) ≤ B.maxSig) := by
      intro hc
      omega
    rw [if_neg hn1]
    have hn2 : ¬ (B.maxSig < 0) := by omega
    rw [if_neg hn2, if_pos rfl]
  have hnew10 : bnNew B 1 0 = .ok ⟨1, 0⟩ := by
    unfold bnNew
    have hn1 : ¬ (B.minSig ≤ 1 ∧ (1 : ℕ) ≤ B.maxSig) := by
      intro hc
      omega
    rw [if_neg hn1]
    have hn2 : ¬ (B.maxSig < 1) := by omega
    rw [if_neg hn2, if_pos rfl]
  simp only [bnDiv] at hr
  by_cases h1 : bnLT x y
  · rw [if_pos h1, hnew00] at hr
    injection hr with h
    subst h
    exact validForm_mk2 B 0 0 (by omega) (Or.inl rfl)
  rw [if_neg h1] at hr
  by_cases h2 : x = y
  · rw [if_pos h2, hnew10] at hr
    injection hr with h
    subst h
    exact validForm_mk2 B 1 0 (by omega) (Or.inl rfl)
  rw [if_neg h2] at hr
  by_cases h3 : x.exp = 0
  · rw [if_pos h3] at hr
    by_cases h4 : y.sig = 0
    · rw [if_pos h4] at hr
      exact absurd hr (by simp)
    · rw [if_neg h4] at hr
      injection hr with h
      subst h
      exact validForm_mk2 B (x.sig / y.sig) x.exp
        (le_trans (Nat.div_le_self _ _) hx.1) (Or.inl h3)
  rw [if_neg h3] at hr
  by_cases h4 : y.sig = 0
  · rw [if_pos h4] at hr
    exact absurd hr (by simp)
  rw [if_neg h4] at hr
  have hxs : B.minSig ≤ x.sig := hx.2.resolve_left h3
  have hD_ge : B.minSig ≤ lshift B x.sig B.maxExp / y.sig := by
    rw [Nat.le_div_iff_mul_le (by omega)]
    simp only [lshift]
    calc B.minSig * y.sig ≤ B.minSig * B.maxSig := Nat.mul_le_mul_left _ hy.1
    _ ≤ B.minSig * B.number ^ B.maxExp := Nat.mul_le_mul_left _ (by omega)
    _ ≤ x.sig * B.number ^ B.maxExp := Nat.mul_le_mul_right _ hxs
  have hD0 : ¬ (lshift B x.sig B.maxExp / y.sig = 0) := by omega
  rw [if_neg hD0] at hr
  have hDle : lshift B x.sig B.maxExp / y.sig ≤ x.sig * B.number ^ B.maxExp := by
    simp only [lshift]
    exact Nat.div_le_self _ _
  have hbound : x.sig * B.number ^ B.maxExp <
      B.number ^ (B.minExp + B.maxExp + 1) := by
    have h5 : x.sig < B.number ^ B.maxExp := by
      have h6 := hx.1
      omega
    have h7 : x.sig * B.number ^ B.maxExp <
        B.number ^ B.maxExp * B.number ^ B.maxExp :=
      Nat.mul_lt_mul_of_lt_of_le h5 (le_refl _) (pow_pos (by omega) _)
    have h8 : B.number ^ B.maxExp * B.number ^ B.maxExp =
        B.number ^ (B.maxExp + B.maxExp) := (pow_add _ _ _).symm
    have h9 : B.maxExp + B.maxExp = B.minExp + B.maxExp + 1 := by omega
    rw [h8, h9] at h7
    exact h7
  have hmagD : getMag B (lshift B x.sig B.maxExp / y.sig) =
      Nat.log B.number (lshift B x.sig B.maxExp / y.sig) := by
    apply getMag_eq_log B hb
    have h6 : x.sig * B.number ^ B.maxExp ≤ 2 ^ 64 * 2 ^ 64 :=
      Nat.mul_le_mul (by omega) (by omega)
    have h7 : (2 : ℕ) ^ 64 * 2 ^ 64 < 2 ^ 130 := by norm_num
    omega
  have hmag_ge : B.minExp ≤ getMag B (lshift B x.sig B.maxExp / y.sig) := by
    rw [hmagD]
    apply (Nat.pow_le_iff_le_log (by omega) hD0).mp
    omega
  have hmag_le : getMag B (lshift B x.sig B.maxExp / y.sig) ≤
      B.minExp + B.maxExp := by
    rw [hmagD]
    have h8 : Nat.log B.number (lshift B x.sig B.maxExp / y.sig) <
        B.minExp + B.maxExp + 1 :=
      Nat.log_lt_of_lt_pow hD0 (by omega)
    omega
  have hupD : lshift B x.sig B.maxExp / y.sig <
      B.number ^ (getMag B (lshift B x.sig B.maxExp / y.sig) + 1) := by
    rw [hmagD]
    exact Nat.lt_pow_succ_log_self (by omega) _
  have hlowD : B.number ^ getMag B (lshift B x.sig B.maxExp / y.sig) ≤
      lshift B x.sig B.maxExp / y.sig := by
    rw [hmagD]
    exact Nat.pow_log_le_self _ hD0
  have hmmax : B.number ^ (B.minExp + 1) = B.maxSig + 1 := by
    rw [hmaxExp_eq] at hpow_max
    omega
  by_cases h9 : B.minExp + B.maxExp -
      getMag B (lshift B x.sig B.maxExp / y.sig) ≤ x.exp - y.exp
  · rw [if_pos h9] at hr
    injection hr with h
    subst h
    have hsh : B.maxExp - (B.minExp + B.maxExp -
        getMag B (lshift B x.sig B.maxExp / y.sig)) =
        getMag B (lshift B x.sig B.maxExp / y.sig) - B.minExp := by omega
    apply validForm_mk2
    · simp only [rshift]
      rw [hsh]
      have h10 := div_pow_lt (b := B.number)
        (i := getMag B (lshift B x.sig B.maxExp / y.sig) - B.minExp)
        (by omega) hupD (by omega)
      have hexp : getMag B (lshift B x.sig B.maxExp / y.sig) + 1 -
          (getMag B (lshift B x.sig B.maxExp / y.sig) - B.minExp) =
          B.minExp + 1 := by omega
      rw [hexp] at h10
      omega
    · refine Or.inr ?_
      simp only [rshift]
      rw [hsh]
      have h10 := le_div_pow (b := B.number)
        (i := getMag B (lshift B x.sig B.maxExp / y.sig) - B.minExp)
        (by omega) hlowD (by omega)
      have hexp : getMag B (lshift B x.sig B.maxExp / y.sig) -
          (getMag B (lshift B x.sig B.maxExp / y.sig) - B.minExp) =
          B.minExp := by omega
      rw [hexp] at h10
      rw [hminSig_eq]
      exact h10
  · rw [if_neg h9] at hr
    injection hr with h
    subst h
    push_neg at h9
    apply validForm_mk2
    · simp only [rshift]
      have ht : B.maxExp - (B.minExp + B.maxExp -
          getMag B (lshift B x.sig B.maxExp / y.sig)) +
          (B.minExp + B.maxExp -
            getMag B (lshift B x.sig B.maxExp / y.sig) - (x.exp - y.exp)) =
          B.maxExp - (x.exp - y.exp) := by omega
      rw [ht]
      have h10 := div_pow_lt (b := B.number)
        (i := B.maxExp - (x.exp - y.exp)) (by omega) hupD (by omega)
      have h11 : getMag B (lshift B x.sig B.maxExp / y.sig) + 1 -
          (B.maxExp - (x.exp - y.exp)) ≤ B.minExp := by omega
      have h12 : B.number ^ (getMag B (lshift B x.sig B.maxExp / y.sig) + 1 -
          (B.maxExp - (x.exp - y.exp))) ≤ B.number ^ B.minExp :=
        Nat.pow_le_pow_right (by omega) h11
      have hd4 : B.number ^ B.minExp ≤ B.maxSig := by
        rw [← hminSig_eq]
        exact hminmax
      omega
    · exact Or.inl rfl

/-- `Shl` preserves the two-form invariant on every normal return. -/
lemma bnShl_valid (B : BaseCtx) (hB : Contract B) (x : BigNum)
    (hx : isValidB B x) (n : ℕ) :
    ∀ r, bnShl B x n = .ok r → validForm B r := by
  intro r hr
  have hb := ctr_number B hB
  have hminmax := ctr_minSig_le_maxSig B hB
  have hMlt := ctr_maxSig_lt B hB
  have hminSig_eq := ctr_minSig_eq B hB
  have hmaxExp_eq := ctr_maxExp_eq B hB
  have hpow_max := ctr_pow_maxExp B hB
  simp only [bnShl] at hr
  by_cases h1 : x.exp ≠ 0
  · rw [if_pos h1] at hr
    by_cases h2 : x.exp + n ≤ u64MAX
    · rw [if_pos h2] at hr
      injection hr with h
      subst h
      exact validForm_mk2 B x.sig (x.exp + n) hx.1
        (Or.inr (hx.2.resolve_left h1))
    · rw [if_neg h2] at hr
      exact absurd hr (by simp)
  rw [if_neg h1] at hr
  by_cases h2 : x.sig = 0
  · rw [if_pos h2] at hr
    exact absurd hr (by simp)
  rw [if_neg h2] at hr
  have hmag : getMag B x.sig = Nat.log B.number x.sig := by
    apply getMag_eq_log B hb
    have h4 : (2 : ℕ) ^ 64 < 2 ^ 130 := by norm_num
    have h5 := hx.1
    omega
  have hmaglt : Nat.log B.number x.sig < B.maxExp := by
    apply Nat.log_lt_of_lt_pow h2
    have h5 := hx.1
    omega
  have hup : x.sig < B.number ^ (getMag B x.sig + 1) := by
    rw [hmag]
    exact Nat.lt_pow_succ_log_self (by omega) _
  have hlow : B.number ^ getMag B x.sig ≤ x.sig := by
    rw [hmag]
    exact Nat.pow_log_le_self _ h2
  have hmmax : B.number ^ (B.minExp + 1) = B.maxSig + 1 := by
    rw [hmaxExp_eq] at hpow_max
    omega
  by_cases h3 : n < B.minExp - getMag B x.sig
  · rw [if_pos h3] at hr
    injection hr with h
    subst h
    apply validForm_mk2
    · simp only [lshift]
      have h4 : x.sig * B.number ^ n <
          B.number ^ (getMag B x.sig + 1) * B.number ^ n :=
        Nat.mul_lt_mul_of_lt_of_le hup (le_refl _) (pow_pos (by omega) _)
      rw [← pow_add] at h4
      have h5 : getMag B x.sig + 1 + n ≤ B.minExp := by omega
      have h6 : B.number ^ (getMag B x.sig + 1 + n) ≤ B.number ^ B.minExp :=
        Nat.pow_le_pow_right (by omega) h5
      have h7 : B.number ^ B.minExp ≤ B.maxSig := by
        rw [← hminSig_eq]
        exact hminmax
      omega
    · exact Or.inl rfl
  · rw [if_neg h3] at hr
    injection hr with h
    subst h
    have hmagle2 : getMag B x.sig ≤ B.minExp := by omega
    apply validForm_mk2
    · simp only [lshift]
      have h4 : x.sig * B.number ^ (B.minExp - getMag B x.sig) <
          B.number ^ (getMag B x.sig + 1) *
            B.number ^ (B.minExp - getMag B x.sig) :=
        Nat.mul_lt_mul_of_lt_of_le hup (le_refl _) (pow_pos (by omega) _)
      rw [← pow_add] at h4
      have h5 : getMag B x.sig + 1 + (B.minExp - getMag B x.sig) =
          B.minExp + 1 := by omega
      rw [h5] at h4
      omega
    · refine Or.inr ?_
      simp only [lshift]
      have h4 : B.number ^ getMag B x.sig *
          B.number ^ (B.minExp - getMag B x.sig) ≤
          x.sig * B.number ^ (B.minExp - getMag B x.sig) :=
        Nat.mul_le_mul_right _ hlow
      rw [← pow_add] at h4
      have h5 : getMag B x.sig + (B.minExp - getMag B x.sig) = B.minExp := by
        omega
      rw [h5] at h4
      rw [hminSig_eq]
      exact h4

/-- `Shr` preserves the two-form invariant on every normal return. -/
lemma bnShr_valid (B : BaseCtx) (_hB : Contract B) (x : BigNum)
    (hx : isValidB B x) (n : ℕ) :
    ∀ r, bnShr B x n = .ok r → validForm B r := by
  intro r hr
  simp only [bnShr] at hr
  by_cases h1 : n ≤ x.exp
  · rw [if_pos h1] at hr
    injection hr with h
    subst h
    apply validForm_mk2 B x.sig (x.exp - n) hx.1
    by_cases h2 : x.exp - n = 0
    · exact Or.inl h2
    · exact Or.inr (hx.2.resolve_left (by omega))
  rw [if_neg h1] at hr
  by_cases h2 : x.sig = 0
  · rw [if_pos h2] at hr
    exact absurd hr (by simp)
  rw [if_neg h2] at hr
  by_cases h3 : getMag B x.sig < n - x.exp
  · rw [if_pos h3] at hr
    exact absurd hr (by simp)
  · rw [if_neg h3] at hr
    injection hr with h
    subst h
    exact validForm_mk2 B _ 0 (le_trans (Nat.div_le_self _ _) hx.1)
      (Or.inl rfl)

/-- `succ` preserves the two-form invariant. -/
lemma bnSucc_valid (B : BaseCtx) (hB : Contract B) (x : BigNum)
    (hx : isValidB B x) : validForm B (bnSucc B x) := by
  have hminmax := ctr_minSig_le_maxSig B hB
  unfold bnSucc
  by_cases h1 : x.sig = B.maxSig
  · rw [if_pos h1]
    exact validForm_mk2 B B.minSig (x.exp + 1) hminmax (Or.inr (le_refl _))
  · rw [if_neg h1]
    apply validForm_mk2
    · have h2 := hx.1
      omega
    · rcases hx.2 with h | h
      · exact Or.inl h
      · exact Or.inr (by omega)

/-- `pred` preserves the two-form invariant on every normal return. -/
lemma bnPred_valid (B : BaseCtx) (hB : Contract B) (x : BigNum)
    (hx : isValidB B x) : ∀ r, bnPred B x = .ok r → validForm B r := by
  intro r hr
  simp only [bnPred] at hr
  by_cases h1 : x.exp = 0
  · rw [if_pos h1] at hr
    by_cases h2 : x.sig = 0
    · rw [if_pos h2] at hr
      exact absurd hr (by simp)
    · rw [if_neg h2] at hr
      injection hr with h
      subst h
      refine validForm_mk2 B (x.sig - 1) x.exp ?_ (Or.inl h1)
      have h3 := hx.1
      omega
  rw [if_neg h1] at hr
  by_cases h2 : x.sig = B.minSig
  · rw [if_pos h2] at hr
    injection hr with h
    subst h
    exact validForm_mk2 B B.maxSig (x.exp - 1) (le_refl _)
      (Or.inr (ctr_minSig_le_maxSig B hB))
  · rw [if_neg h2] at hr
    injection hr with h
    subst h
    apply validForm_mk2
    · have h3 := hx.1
      omega
    · refine Or.inr ?_
      have h3 := hx.2.resolve_left h1
      omega

/-- C1: for every contract base and valid operands (with `lhs ≥ rhs` for
`Sub` enforced by its guard), every normally-returning operation among Add,
Sub, Mul, Div, Shl, Shr, succ and pred yields a value in exactly one of the
two valid forms — compact (`exp = 0`, `sig ≤ maxSig`) or expanded
(`exp > 0`, `minSig ≤ sig ≤ maxSig`). -/
theorem c1_state_machine (B : BaseCtx) (hB : Contract B) (x y : BigNum)
    (hx : isValidB B x) (hy : isValidB B y) (n : ℕ) :
    validForm B (bnAdd B x y) ∧
    (∀ r, bnSub B x y = .ok r → validForm B r) ∧
    (∀ r, bnMul B x y = .ok r → validForm B r) ∧
    (∀ r, bnDiv B x y = .ok r → validForm B r) ∧
    (∀ r, bnShl B x n = .ok r → validForm B r) ∧
    (∀ r, bnShr B x n = .ok r → validForm B r) ∧
    validForm B (bnSucc B x) ∧
    (∀ r, bnPred B x = .ok r → validForm B r) :=
  ⟨bnAdd_valid B hB x y hx hy, bnSub_valid B hB x y hx hy,
   bnMul_valid B hB x y hx hy, bnDiv_valid B hB x y hx hy,
   bnShl_valid B hB x hx n, bnShr_valid B hB x hx n,
   bnSucc_valid B hB x hx, bnPred_valid B hB x hx⟩

theorem c1_state_machine_witness :
    Contract binB ∧ isValidB binB ⟨3, 0⟩ ∧ isValidB binB ⟨5, 0⟩ ∧
      (validForm binB (bnAdd binB ⟨3, 0⟩ ⟨5, 0⟩) ∧
       (∀ r, bnSub binB ⟨3, 0⟩ ⟨5, 0⟩ = .ok r → validForm binB r) ∧
       (∀ r, bnMul binB ⟨3, 0⟩ ⟨5, 0⟩ = .ok r → validForm binB r) ∧
       (∀ r, bnDiv binB ⟨3, 0⟩ ⟨5, 0⟩ = .ok r → validForm binB r) ∧
       (∀ r, bnShl binB ⟨3, 0⟩ 2 = .ok r → validForm binB r) ∧
       (∀ r, bnShr binB ⟨3, 0⟩ 2 = .ok r → validForm binB r) ∧
       validForm binB (bnSucc binB ⟨3, 0⟩) ∧
       (∀ r, bnPred binB ⟨3, 0⟩ = .ok r → validForm binB r)) :=
  ⟨by decide, by decide, by decide,
    c1_state_machine binB (by decide) ⟨3, 0⟩ ⟨5, 0⟩ (by decide) (by decide) 2⟩

example : Contract binB := by decide
example : bnAdd binB ⟨2 ^ 64 - 1, 1⟩ ⟨2, 0⟩ = ⟨2 ^ 63, 2⟩ := by decide
example : bnSub binB ⟨2 ^ 64 - 1, 1⟩ ⟨2 ^ 64 - 1, 0⟩ = .ok ⟨2 ^ 63, 1⟩ := by
  decide
example : bnDiv binB ⟨0, 0⟩ ⟨0, 0⟩ = .ok ⟨1, 0⟩ := by decide
example : calculateRanges 2 = ((63, 64), (2 ^ 63, u64MAX)) := by decide
example : calculateRanges 10 = ((18, 19), (10 ^ 18, 10 ^ 19 - 1)) := by decide
